import Mathlib

/-!
Verification of the matrix/index-set assembly layer of IBAMR
(ibtk/src/math/PETScMatUtilities.cpp) against its natural-language
specification.  Each C++ routine relevant to a claim is shallowly embedded
as an executable Lean definition; machine ints become ℤ (no overflow is
exercised by the claims), PETSc scalars become ℚ (exact arithmetic), and
fallible code returns Except.
-/

namespace PETScMatUtilities

/-! ## DOF Partition Descriptor

Embeds the index-range computation appearing at the top of
constructPatchLevelCCLaplaceOp (and repeated verbatim in the SC variants):

  const int n_local = num_dofs_per_proc[mpi_rank];
  const int i_lower = std::accumulate(num_dofs_per_proc.begin(),
                                      num_dofs_per_proc.begin() + mpi_rank, 0);
  const int i_upper = i_lower + n_local;
  const int n_total = std::accumulate(num_dofs_per_proc.begin(),
                                      num_dofs_per_proc.end(), 0);

The per-process DOF counts are taken non-negative (they are counts), so we
use ℕ; this matches the claim, which quantifies over vectors of
non-negative integers. -/

/-- Lower end of the ownership range of process r: the prefix sum of the
counts of the processes before r (std::accumulate over the first r
entries). -/
def dofLower (counts : List ℕ) (r : ℕ) : ℕ :=
  ((counts.take r).sum)

/-- Upper end (exclusive) of the ownership range of process r:
i_upper = i_lower + n_local where n_local = counts[r]. -/
def dofUpper (counts : List ℕ) (r : ℕ) : ℕ :=
  dofLower counts r + counts.getD r 0

/-- Total number of DOFs: the sum of all per-process counts
(std::accumulate over the whole vector). -/
def dofTotal (counts : List ℕ) : ℕ :=
  counts.sum

lemma dofLower_succ (counts : List ℕ) (r : ℕ) (h : r < counts.length) :
    dofLower counts (r + 1) = dofUpper counts r := by
  unfold dofLower dofUpper
  rw [List.sum_take_succ counts r h, List.getD_eq_getElem counts 0 h]
  rfl

lemma dofLower_mono (counts : List ℕ) {r s : ℕ} (h : r ≤ s) :
    dofLower counts r ≤ dofLower counts s := by
  unfold dofLower
  exact List.Sublist.sum_le_sum (List.take_sublist_take_left counts h) (fun _ _ => Nat.zero_le _)

lemma dofUpper_le_lower (counts : List ℕ) {r s : ℕ} (hrs : r < s)
    (hs : s ≤ counts.length) : dofUpper counts r ≤ dofLower counts s := by
  have hr : r < counts.length := lt_of_lt_of_le hrs hs
  rw [← dofLower_succ counts r hr]
  exact dofLower_mono counts hrs

lemma dofUpper_le_total (counts : List ℕ) (r : ℕ) :
    dofUpper counts r ≤ dofTotal counts := by
  unfold dofUpper dofLower dofTotal
  by_cases h : r < counts.length
  · have := List.sum_take_succ counts r h
    calc (counts.take r).sum + counts.getD r 0
        = (counts.take (r + 1)).sum := by
          rw [this, List.getD_eq_getElem counts 0 h]
      _ ≤ counts.sum := List.Sublist.sum_le_sum (List.take_sublist _ _) (fun _ _ => Nat.zero_le _)
  · push_neg at h
    rw [List.getD_eq_default counts 0 (by omega), List.take_of_length_le (by omega)]
    simp

lemma dofTotal_covered (counts : List ℕ) {x : ℕ} (hx : x < dofTotal counts) :
    ∃ r, r < counts.length ∧ dofLower counts r ≤ x ∧ x < dofUpper counts r := by
  induction counts generalizing x with
  | nil => simp [dofTotal] at hx
  | cons c cs ih =>
    by_cases hc : x < c
    · exact ⟨0, by simp, by simp [dofLower], by simpa [dofUpper, dofLower] using hc⟩
    · push_neg at hc
      have hx' : x - c < dofTotal cs := by
        simp [dofTotal] at hx ⊢; omega
      obtain ⟨r, hr, hlo, hhi⟩ := ih hx'
      refine ⟨r + 1, by simpa using hr, ?_, ?_⟩
      · simp only [dofLower, List.take_succ_cons, List.sum_cons] at *
        omega
      · simp only [dofUpper, dofLower, List.take_succ_cons, List.sum_cons, List.getD_cons_succ] at *
        omega

/-- C1. For every per-process DOF-count vector of non-negative integers,
the derived ownership ranges [dofLower r, dofUpper r) are pairwise
disjoint (successive ranges abut: the upper end of an earlier range never
exceeds the lower end of a later one) and their union is exactly
[0, dofTotal): every x below the total lies in exactly the range of some
process, and every range is contained in [0, total). -/
theorem dof_ownership_ranges_tile (counts : List ℕ) :
    (∀ r s, r < s → s ≤ counts.length → dofUpper counts r ≤ dofLower counts s) ∧
    (∀ x, x < dofTotal counts ↔
      ∃ r, r < counts.length ∧ dofLower counts r ≤ x ∧ x < dofUpper counts r) := by
  constructor
  · intro r s hrs hs
    exact dofUpper_le_lower counts hrs hs
  · intro x
    constructor
    · exact dofTotal_covered counts
    · rintro ⟨r, _, _, hhi⟩
      exact lt_of_lt_of_le hhi (dofUpper_le_total counts r)

/-- Witness for C1 at the concrete count vector [2, 0, 3]: the range of
process 0 ends no later than that of process 2 begins, and the concrete
DOF 4 lies below the total and inside the range of process 2. -/
theorem dof_ownership_ranges_tile_witness :
    dofUpper [2, 0, 3] 0 ≤ dofLower [2, 0, 3] 2 ∧
    (4 < dofTotal [2, 0, 3] ↔
      ∃ r, r < 3 ∧ dofLower [2, 0, 3] r ≤ 4 ∧ 4 < dofUpper [2, 0, 3] r) := by
  refine ⟨(dof_ownership_ranges_tile [2, 0, 3]).1 0 2 (by decide) (by decide), ?_⟩
  simpa using (dof_ownership_ranges_tile [2, 0, 3]).2 4

/-! ## Stencil Operator Assembler: nonzero counting vs. value insertion

Embeds, per owned row, the count phase of constructPatchLevelCCLaplaceOp
(lines 157-204): the center cell contributes 1 to the local budget
(d_nnz[local_idx] += 1), each of the 2*NDIM stencil neighbors contributes
to the local budget when its DOF index lies in [i_lower, i_upper) and to
the remote budget otherwise, and each budget is then clamped:
d_nnz = min(n_local, d_nnz), o_nnz = min(n_total - n_local, o_nnz).
The value phase (lines 226-251) inserts one row whose columns are the DOF
indices of the center and of the stencil neighbors, in stencil order.
PETSc drops columns with negative index at MatSetValues, and repeated
columns of one row occupy a single slot, so the nonzeros actually
allocated for the row are the distinct non-negative inserted columns.

The row is parametrized by the ownership range [iLower, iLower + nLocal)
of the calling process, the global total nTotal, the DOF index of the
center cell, and the list of DOF indices read at the stencil neighbors
(of length 2*NDIM in the code; the arithmetic is independent of the
length). -/

/-- Ownership test i_lower <= dof_index < i_upper used by the count
phase. -/
def isLocalDof (iLower iUpper j : ℤ) : Bool :=
  decide (iLower ≤ j) && decide (j < iUpper)

/-- Local (diagonal-block) nonzero budget of one row after clamping:
1 for the center plus one per neighbor whose DOF lies in the ownership
range, clamped to n_local. -/
def d_nnz (iLower nLocal : ℤ) (nbrs : List ℤ) : ℤ :=
  min nLocal (1 + ((nbrs.filter (fun j => isLocalDof iLower (iLower + nLocal) j)).length : ℤ))

/-- Remote (off-diagonal-block) nonzero budget of one row after clamping:
one per neighbor whose DOF lies outside the ownership range, clamped to
n_total - n_local. -/
def o_nnz (iLower nLocal nTotal : ℤ) (nbrs : List ℤ) : ℤ :=
  min (nTotal - nLocal)
    ((nbrs.filter (fun j => !isLocalDof iLower (iLower + nLocal) j)).length : ℤ)

/-- Columns inserted for one row in the value phase: the center DOF
followed by the neighbor DOFs, in stencil order (mat_cols). -/
def insertedCols (center : ℤ) (nbrs : List ℤ) : List ℤ :=
  center :: nbrs

/-- Nonzeros the inserted row actually occupies in the diagonal block:
distinct inserted columns that are non-negative (PETSc ignores negative
column indices) and locally owned. -/
def actualLocalNnz (iLower nLocal center : ℤ) (nbrs : List ℤ) : ℕ :=
  (((insertedCols center nbrs).filter
      (fun j => decide (0 ≤ j) && isLocalDof iLower (iLower + nLocal) j)).dedup).length

/-- Nonzeros the inserted row actually occupies in the off-diagonal block:
distinct inserted columns that are non-negative and not locally owned. -/
def actualRemoteNnz (iLower nLocal center : ℤ) (nbrs : List ℤ) : ℕ :=
  (((insertedCols center nbrs).filter
      (fun j => decide (0 ≤ j) && !isLocalDof iLower (iLower + nLocal) j)).dedup).length

lemma dedup_length_le_card_of_subset {l : List ℤ} {s : Finset ℤ}
    (h : ∀ x ∈ l, x ∈ s) : l.dedup.length ≤ s.card := by
  rw [← List.toFinset_card_of_nodup (List.nodup_dedup l)]
  apply Finset.card_le_card
  intro x hx
  rw [List.mem_toFinset, List.mem_dedup] at hx
  exact h x hx

lemma filter_dedup_length_le {l : List ℤ} (p : ℤ → Bool) :
    ((l.filter p).dedup).length ≤ (l.filter p).length :=
  (List.dedup_sublist _).length_le

/-- C2. For every owned row of the cell-centered Laplacian, the clamped
local and remote nonzero budgets declared by the count phase are
sufficient for every nonzero actually inserted by the value phase:
assuming the center DOF is owned (the loop guard), the ownership range
lies inside [0, nTotal), and every neighbor DOF index is below the global
total, the distinct non-negative local (resp. remote) columns of the
inserted row number at most d_nnz (resp. o_nnz), so the allocation never
needs to grow. -/
theorem cc_laplace_nnz_budgets_sufficient
    (iLower nLocal nTotal center : ℤ) (nbrs : List ℤ)
    (hcenter : iLower ≤ center ∧ center < iLower + nLocal)
    (hlo : 0 ≤ iLower) (hhi : iLower + nLocal ≤ nTotal)
    (hnbrs : ∀ j ∈ nbrs, j < nTotal) :
    (actualLocalNnz iLower nLocal center nbrs : ℤ) ≤ d_nnz iLower nLocal nbrs ∧
    (actualRemoteNnz iLower nLocal center nbrs : ℤ) ≤ o_nnz iLower nLocal nTotal nbrs := by
  have hcl : isLocalDof iLower (iLower + nLocal) center = true := by
    simp [isLocalDof, hcenter.1, hcenter.2]
  constructor
  · -- local budget
    unfold actualLocalNnz d_nnz
    apply le_min
    · -- distinct local columns fit in the ownership range
      have hsub : ∀ x ∈ (insertedCols center nbrs).filter
          (fun j => decide (0 ≤ j) && isLocalDof iLower (iLower + nLocal) j),
          x ∈ Finset.Ico iLower (iLower + nLocal) := by
        intro x hx
        rw [List.mem_filter] at hx
        have := hx.2
        simp only [Bool.and_eq_true, decide_eq_true_eq, isLocalDof] at this
        exact Finset.mem_Ico.mpr ⟨this.2.1, this.2.2⟩
      have hc := dedup_length_le_card_of_subset hsub
      rw [Int.card_Ico] at hc
      calc ((((insertedCols center nbrs).filter _).dedup).length : ℤ)
          ≤ ((iLower + nLocal - iLower).toNat : ℤ) := by exact_mod_cast hc
        _ ≤ nLocal := by omega
    · -- each distinct local column was counted
      have h1 : (((insertedCols center nbrs).filter
          (fun j => decide (0 ≤ j) && isLocalDof iLower (iLower + nLocal) j)).dedup).length
          ≤ ((insertedCols center nbrs).filter
              (fun j => isLocalDof iLower (iLower + nLocal) j)).length := by
        refine le_trans (filter_dedup_length_le _) ?_
        apply List.Sublist.length_le
        exact List.monotone_filter_right _ (fun x hx => by
          simp only [Bool.and_eq_true] at hx; exact hx.2)
      have h2 : ((insertedCols center nbrs).filter
          (fun j => isLocalDof iLower (iLower + nLocal) j)).length
          = 1 + (nbrs.filter (fun j => isLocalDof iLower (iLower + nLocal) j)).length := by
        simp [insertedCols, List.filter_cons, hcl, Nat.add_comm]
      calc ((((insertedCols center nbrs).filter _).dedup).length : ℤ)
          ≤ (((insertedCols center nbrs).filter
              (fun j => isLocalDof iLower (iLower + nLocal) j)).length : ℤ) := by
            exact_mod_cast h1
        _ = 1 + ((nbrs.filter (fun j => isLocalDof iLower (iLower + nLocal) j)).length : ℤ) := by
            exact_mod_cast h2
  · -- remote budget
    unfold actualRemoteNnz o_nnz
    apply le_min
    · -- distinct remote columns fit in [0, nTotal) minus the ownership range
      have hsub : ∀ x ∈ (insertedCols center nbrs).filter
          (fun j => decide (0 ≤ j) && !isLocalDof iLower (iLower + nLocal) j),
          x ∈ Finset.Ico (0 : ℤ) nTotal \ Finset.Ico iLower (iLower + nLocal) := by
        intro x hx
        rw [List.mem_filter] at hx
        obtain ⟨hmem, hp⟩ := hx
        simp only [Bool.and_eq_true, decide_eq_true_eq, Bool.not_eq_true',
          isLocalDof, Bool.and_eq_false_iff, decide_eq_false_iff_not, not_lt, not_le] at hp
        have hxt : x < nTotal := by
          rcases List.mem_cons.mp hmem with h | h
          · subst h; omega
          · exact hnbrs x h
        rw [Finset.mem_sdiff, Finset.mem_Ico, Finset.mem_Ico]
        refine ⟨⟨hp.1, hxt⟩, ?_⟩
        intro hcon
        rcases hp.2 with h | h
        · omega
        · omega
      have hc := dedup_length_le_card_of_subset hsub
      have hcard : (Finset.Ico (0 : ℤ) nTotal \ Finset.Ico iLower (iLower + nLocal)).card
          = nTotal.toNat - (iLower + nLocal - iLower).toNat := by
        rw [Finset.card_sdiff, Int.card_Ico, Int.card_Ico]
        · congr 1; omega
        · intro x hx
          rw [Finset.mem_Ico] at hx ⊢
          omega
      rw [hcard] at hc
      calc ((((insertedCols center nbrs).filter _).dedup).length : ℤ)
          ≤ ((nTotal.toNat - (iLower + nLocal - iLower).toNat : ℕ) : ℤ) := by exact_mod_cast hc
        _ ≤ nTotal - nLocal := by omega
    · -- each distinct remote column was counted (the center is local, so
      -- every remote column comes from a neighbor counted in o_nnz)
      have h1 : (((insertedCols center nbrs).filter
          (fun j => decide (0 ≤ j) && !isLocalDof iLower (iLower + nLocal) j)).dedup).length
          ≤ ((insertedCols center nbrs).filter
              (fun j => !isLocalDof iLower (iLower + nLocal) j)).length := by
        refine le_trans (filter_dedup_length_le _) ?_
        apply List.Sublist.length_le
        exact List.monotone_filter_right _ (fun x hx => by
          simp only [Bool.and_eq_true] at hx; exact hx.2)
      have h2 : ((insertedCols center nbrs).filter
          (fun j => !isLocalDof iLower (iLower + nLocal) j)).length
          = (nbrs.filter (fun j => !isLocalDof iLower (iLower + nLocal) j)).length := by
        simp [insertedCols, hcl]
      calc ((((insertedCols center nbrs).filter _).dedup).length : ℤ)
          ≤ (((insertedCols center nbrs).filter
              (fun j => !isLocalDof iLower (iLower + nLocal) j)).length : ℤ) := by
            exact_mod_cast h1
        _ = ((nbrs.filter (fun j => !isLocalDof iLower (iLower + nLocal) j)).length : ℤ) := by
            exact_mod_cast h2

/-- Witness for C2: a concrete owned row (ownership range [3, 6) of a
9-DOF problem, center DOF 4, neighbors 3, 5, 7, -1) satisfies the
hypotheses, and its actual nonzeros fit the declared budgets. -/
theorem cc_laplace_nnz_budgets_sufficient_witness :
    ((3 : ℤ) ≤ 4 ∧ (4 : ℤ) < 3 + 3) ∧ (0 : ℤ) ≤ 3 ∧ (3 : ℤ) + 3 ≤ 9 ∧
    (∀ j ∈ ([3, 5, 7, -1] : List ℤ), j < 9) ∧
    ((actualLocalNnz 3 3 4 [3, 5, 7, -1] : ℤ) ≤ d_nnz 3 3 [3, 5, 7, -1] ∧
     (actualRemoteNnz 3 3 4 [3, 5, 7, -1] : ℤ) ≤ o_nnz 3 3 9 [3, 5, 7, -1]) :=
  ⟨⟨by decide, by decide⟩, by decide, by decide, by decide,
    cc_laplace_nnz_budgets_sufficient 3 3 9 4 [3, 5, 7, -1]
      ⟨by decide, by decide⟩ (by decide) (by decide) (by decide)⟩

/-! ## Inter-Level Transfer Assembler: cell-centered prolongation

Embeds the value phase of constructProlongationOp_cell: for every fine
cell i_fine and depth component d, the code inserts exactly one matrix
entry

  row = dof_fine(i_fine, d)
  col = AOApplicationToPetsc(mapIndexToInteger(coarsen(i_fine, ratio), d))
  val = 1.0

A multi-dimensional cell index is a function Fin n → ℤ (n = NDIM). -/

/-- Multi-dimensional integer grid index. -/
def CellIdx (n : ℕ) := Fin n → ℤ

/-- Modelled from the spec: IndexUtilities::coarsen (declared in
ibtk/IndexUtilities.h, not under src/) — the coarse cell containing the
fine cell, obtained by componentwise integer-coarsening (floor division)
of the fine index by the refinement ratio. -/
def coarsenCell {n : ℕ} (i ratio : CellIdx n) : CellIdx n :=
  fun d => Int.fdiv (i d) (ratio d)

/-- One entry of an assembled distributed sparse matrix: global row,
global column and exact-rational value. -/
structure PEntry where
  row : ℤ
  col : ℤ
  val : ℚ
  deriving DecidableEq, Repr

/-- Entries inserted by constructProlongationOp_cell for one fine cell:
one entry per depth component d, with row the fine DOF, column the
coarse index passed through the lexicographic map (mapToInt models
IndexUtilities::mapIndexToInteger) and the application ordering (ao
models AOApplicationToPetsc), and value exactly 1. -/
def cellFineEntries {n : ℕ} (depth : ℕ) (dof : CellIdx n → ℕ → ℤ)
    (ratio : CellIdx n) (mapToInt : CellIdx n → ℕ → ℤ) (ao : ℤ → ℤ)
    (i : CellIdx n) : List PEntry :=
  (List.range depth).map (fun d =>
    ⟨dof i d, ao (mapToInt (coarsenCell i ratio) d), (1 : ℚ)⟩)

/-- All entries inserted by the value phase of
constructProlongationOp_cell: the fine patch boxes are traversed cell by
cell, each cell contributing its per-depth entries. -/
def cellProlongEntries {n : ℕ} (cells : List (CellIdx n)) (depth : ℕ)
    (dof : CellIdx n → ℕ → ℤ) (ratio : CellIdx n)
    (mapToInt : CellIdx n → ℕ → ℤ) (ao : ℤ → ℤ) : List PEntry :=
  cells.flatMap (cellFineEntries depth dof ratio mapToInt ao)

lemma filter_eq_nil_of_none {α : Type} (p : α → Bool) (l : List α)
    (h : ∀ x ∈ l, p x = false) : l.filter p = [] := by
  induction l with
  | nil => rfl
  | cons a l ih =>
    rw [List.filter_cons, h a (List.mem_cons_self a l)]
    exact ih (fun x hx => h x (List.mem_cons_of_mem a hx))

lemma range_filter_eq_singleton {depth d : ℕ} (p : ℕ → Bool) (hd : d < depth)
    (hp : ∀ e < depth, p e = true ↔ e = d) :
    (List.range depth).filter p = [d] := by
  induction depth with
  | zero => omega
  | succ m ih =>
    rw [List.range_succ, List.filter_append]
    by_cases hdm : d = m
    · subst hdm
      have h1 : (List.range d).filter p = [] := by
        apply filter_eq_nil_of_none
        intro x hx
        rw [List.mem_range] at hx
        apply Bool.eq_false_iff.mpr
        intro htrue
        exact absurd ((hp x (by omega)).mp htrue) (by omega)
      rw [h1]
      simp [(hp d (by omega)).mpr rfl]
    · have hd' : d < m := by omega
      have h2 : [m].filter p = [] := by
        apply filter_eq_nil_of_none
        intro x hx
        rw [List.mem_singleton] at hx
        subst hx
        apply Bool.eq_false_iff.mpr
        intro htrue
        exact absurd ((hp x (by omega)).mp htrue) (by omega)
      rw [h2, List.append_nil]
      exact ih hd' (fun e he => hp e (by omega))

/-- C3. In the volumetric (cell-centered) prolongation operator, the row
of every fine DOF contains exactly one entry: assuming the traversed fine
cells are distinct (a patch box iterator never repeats a cell) and the
fine DOF field is injective over traversed (cell, component) pairs, the
assembled entry list restricted to the row of fine DOF dof i d is the
single entry whose column is the coarse cell obtained by
integer-coarsening i by the refinement ratio, mapped through the
lexicographic index map and the application-to-native permutation, with
value exactly 1. -/
theorem prolongation_cell_row_single_entry {n : ℕ}
    (cells : List (CellIdx n)) (depth : ℕ) (dof : CellIdx n → ℕ → ℤ)
    (ratio : CellIdx n) (mapToInt : CellIdx n → ℕ → ℤ) (ao : ℤ → ℤ)
    (hnodup : cells.Nodup)
    (hinj : ∀ i ∈ cells, ∀ i' ∈ cells, ∀ d < depth, ∀ d' < depth,
      dof i d = dof i' d' → i = i' ∧ d = d')
    (i : CellIdx n) (hi : i ∈ cells) (d : ℕ) (hd : d < depth) :
    (cellProlongEntries cells depth dof ratio mapToInt ao).filter
        (fun e => e.row = dof i d)
      = [⟨dof i d, ao (mapToInt (coarsenCell i ratio) d), (1 : ℚ)⟩] := by
  unfold cellProlongEntries
  rw [List.filter_flatMap]
  obtain ⟨l1, l2, rfl⟩ := List.append_of_mem hi
  have hnd := hnodup
  rw [List.nodup_append] at hnd
  have hi_not_l1 : i ∉ l1 := fun h => hnd.2.2 h (List.mem_cons_self i l2)
  have hi_not_l2 : i ∉ l2 := by
    have := hnd.2.1
    rw [List.nodup_cons] at this
    exact this.1
  have hblock_ne : ∀ i' , i' ∈ l1 ∨ i' ∈ l2 →
      (cellFineEntries depth dof ratio mapToInt ao i').filter
        (fun e => e.row = dof i d) = [] := by
    intro i' hi'
    have hi'mem : i' ∈ l1 ++ i :: l2 := by
      rcases hi' with h | h
      · exact List.mem_append_left _ h
      · exact List.mem_append_right _ (List.mem_cons_of_mem i h)
    have hne : i' ≠ i := by
      intro h
      subst h
      rcases hi' with h | h
      · exact hi_not_l1 h
      · exact hi_not_l2 h
    unfold cellFineEntries
    rw [List.filter_map]
    have : (List.range depth).filter
        ((fun e : PEntry => decide (e.row = dof i d)) ∘
          (fun d' => (⟨dof i' d', ao (mapToInt (coarsenCell i' ratio) d'), (1 : ℚ)⟩ : PEntry)))
        = [] := by
      apply filter_eq_nil_of_none
      intro d' hd'
      rw [List.mem_range] at hd'
      simp only [Function.comp_apply, decide_eq_false_iff_not]
      intro hconeq
      exact hne ((hinj i' hi'mem i (List.mem_append_right _ (List.mem_cons_self i l2))
        d' hd' d hd hconeq).1)
    rw [this]
    rfl
  have hblock_i : (cellFineEntries depth dof ratio mapToInt ao i).filter
      (fun e => e.row = dof i d)
      = [⟨dof i d, ao (mapToInt (coarsenCell i ratio) d), (1 : ℚ)⟩] := by
    unfold cellFineEntries
    rw [List.filter_map]
    have : (List.range depth).filter
        ((fun e : PEntry => decide (e.row = dof i d)) ∘
          (fun d' => (⟨dof i d', ao (mapToInt (coarsenCell i ratio) d'), (1 : ℚ)⟩ : PEntry)))
        = [d] := by
      apply range_filter_eq_singleton _ hd
      intro e he
      simp only [Function.comp_apply, decide_eq_true_eq]
      constructor
      · intro heq
        exact (hinj i (List.mem_append_right _ (List.mem_cons_self i l2))
          i (List.mem_append_right _ (List.mem_cons_self i l2)) e he d hd heq).2
      · intro heq
        subst heq
        rfl
    rw [this]
    rfl
  rw [List.flatMap_append, List.flatMap_cons]
  have hl1 : l1.flatMap (fun a =>
      (cellFineEntries depth dof ratio mapToInt ao a).filter
        (fun e => e.row = dof i d)) = [] := by
    rw [List.flatMap_eq_nil_iff]
    intro x hx
    exact hblock_ne x (Or.inl hx)
  have hl2 : l2.flatMap (fun a =>
      (cellFineEntries depth dof ratio mapToInt ao a).filter
        (fun e => e.row = dof i d)) = [] := by
    rw [List.flatMap_eq_nil_iff]
    intro x hx
    exact hblock_ne x (Or.inr hx)
  rw [hl1, hl2, hblock_i]
  rfl

/-- Witness for C3 on a concrete one-dimensional two-cell fine level with
refinement ratio 2, depth 1, fine DOFs numbered by the cell coordinate
and identity index map and ordering: the row of fine cell 1 holds the
single entry with column coarsen(1) = 0 and value 1. -/
theorem prolongation_cell_row_single_entry_witness :
    (cellProlongEntries (n := 1) [fun _ => 0, fun _ => 1] 1
        (fun i _ => i 0) (fun _ => 2) (fun I _ => I 0) id).filter
        (fun e => e.row = 1)
      = [⟨1, 0, 1⟩] := by
  have hnodup : ([fun _ => 0, fun _ => 1] : List (CellIdx 1)).Nodup := by
    refine List.nodup_cons.mpr ⟨?_, List.nodup_singleton _⟩
    intro hmem
    rw [List.mem_singleton] at hmem
    have h0 := congrFun hmem 0
    simp at h0
  have hinj : ∀ i ∈ ([fun _ => 0, fun _ => 1] : List (CellIdx 1)),
      ∀ i' ∈ ([fun _ => 0, fun _ => 1] : List (CellIdx 1)),
      ∀ d < 1, ∀ d' < 1,
      (fun (i : CellIdx 1) (_ : ℕ) => i 0) i d = (fun (i : CellIdx 1) (_ : ℕ) => i 0) i' d' →
      i = i' ∧ d = d' := by
    intro i hi i' hi' d hd d' hd' heq
    have hd0 : d = 0 := Nat.lt_one_iff.mp hd
    have hd'0 : d' = 0 := Nat.lt_one_iff.mp hd'
    subst hd0
    subst hd'0
    refine ⟨?_, rfl⟩
    simp only at heq
    rcases List.mem_cons.mp hi with h1 | h1
    · rcases List.mem_cons.mp hi' with h2 | h2
      · rw [h1, h2]
      · rw [List.mem_singleton] at h2
        rw [h1, h2] at heq
        simp at heq
    · rw [List.mem_singleton] at h1
      rcases List.mem_cons.mp hi' with h2 | h2
      · rw [h1, h2] at heq
        simp at heq
      · rw [List.mem_singleton] at h2
        rw [h1, h2]
  exact prolongation_cell_row_single_entry
    (n := 1) [fun _ => 0, fun _ => 1] 1 (fun i _ => i 0) (fun _ => 2)
    (fun I _ => I 0) id hnodup hinj (fun _ => 1) (by simp) 0 (by omega)

/-! ## Inter-Level Transfer Assembler: side-centered prolongation

Embeds the value phase of constructProlongationOp_side (lines 1082-1095):
for a fine side location i on a given axis, the two bracketing coarse
cells are I_L = coarsen(i, fine_coarse_ratio) and I_U = I_L + offset
(offset the unit vector of the axis); the code inserts the two entries

  col[0] = ao(mapIndexToInteger(I_L, ...)), value w_L
  col[1] = ao(mapIndexToInteger(I_U, ...)), value 1 - w_L
  w_L = 1 - (i(axis) - refine(I_L, ratio)(axis)) / ratio(axis). -/

/-- Modelled from the spec: IndexUtilities::refine (declared in
ibtk/IndexUtilities.h, not under src/) — the fine image of a coarse
index under refinement, componentwise multiplication by the ratio. -/
def refineIdx (I r : ℤ) : ℤ := I * r

/-- Lower-bracket interpolation weight for one fine side index i on the
axis with refinement ratio r, exactly as the code computes it:
w_L = 1 - (i - refine(coarsen(i, r), r)) / r. -/
def sideW_L (i r : ℤ) : ℚ :=
  1 - ((i : ℚ) - (refineIdx (Int.fdiv i r) r : ℚ)) / (r : ℚ)

/-- Unit offset in the direction of the axis: offset(axis) = 1, other
components 0 (IntVector offset = 0; offset(axis) = 1). -/
def axisOffset {n : ℕ} (axis : Fin n) : CellIdx n :=
  fun d => if d = axis then 1 else 0

/-- Entries inserted by constructProlongationOp_side for one fine side
location i on the given axis and depth component d: exactly the two
bracketing coarse DOFs with weights w_L and 1 - w_L. -/
def sideFineRowEntries {n : ℕ} (axis : Fin n) (ratio : CellIdx n)
    (mapToInt : CellIdx n → ℕ → ℤ) (ao : ℤ → ℤ)
    (row : ℤ) (i : CellIdx n) (d : ℕ) : List PEntry :=
  let imapL := coarsenCell i ratio
  let imapU := fun e => imapL e + axisOffset axis e
  [⟨row, ao (mapToInt imapL d), sideW_L (i axis) (ratio axis)⟩,
   ⟨row, ao (mapToInt imapU d), 1 - sideW_L (i axis) (ratio axis)⟩]

/-- C4. In the directional (side-centered) prolongation operator, every
fine DOF row consists of exactly two entries on the two bracketing
coarse DOFs along the same axis — the lower bracket
I_L = coarsen(i, ratio) and the upper bracket I_L plus the unit offset
of the axis; the lower weight is 1 minus the fractional offset of the
fine location between the refined images of the brackets, the upper
weight is its complement, the two weights sum to exactly 1 and each lies
in [0, 1] (assuming the positive refinement ratio of a fine level). -/
theorem prolongation_side_row_two_bracket_weights {n : ℕ}
    (axis : Fin n) (ratio : CellIdx n) (mapToInt : CellIdx n → ℕ → ℤ)
    (ao : ℤ → ℤ) (row : ℤ) (i : CellIdx n) (d : ℕ)
    (hr : 1 ≤ ratio axis) :
    (sideFineRowEntries axis ratio mapToInt ao row i d).length = 2 ∧
    (sideFineRowEntries axis ratio mapToInt ao row i d).map PEntry.col
      = [ao (mapToInt (coarsenCell i ratio) d),
         ao (mapToInt (fun e => coarsenCell i ratio e + axisOffset axis e) d)] ∧
    (sideFineRowEntries axis ratio mapToInt ao row i d).map PEntry.val
      = [sideW_L (i axis) (ratio axis), 1 - sideW_L (i axis) (ratio axis)] ∧
    sideW_L (i axis) (ratio axis) + (1 - sideW_L (i axis) (ratio axis)) = 1 ∧
    0 ≤ sideW_L (i axis) (ratio axis) ∧ sideW_L (i axis) (ratio axis) ≤ 1 ∧
    0 ≤ 1 - sideW_L (i axis) (ratio axis) ∧
    1 - sideW_L (i axis) (ratio axis) ≤ 1 := by
  have hr0 : (0 : ℤ) < ratio axis := by omega
  have hrq : (0 : ℚ) < ((ratio axis : ℤ) : ℚ) := by exact_mod_cast hr0
  -- rewrite the numerator through floor division: i - r * (i / r) = i % r
  have hfd : Int.fdiv (i axis) (ratio axis) = i axis / ratio axis :=
    Int.fdiv_eq_ediv (i axis) (le_of_lt hr0)
  have hkey : (i axis : ℚ) - (refineIdx (Int.fdiv (i axis) (ratio axis)) (ratio axis) : ℤ)
      = ((i axis % ratio axis : ℤ) : ℚ) := by
    rw [hfd]
    unfold refineIdx
    have hq : ((ratio axis : ℤ) : ℚ) * ((i axis / ratio axis : ℤ) : ℚ)
        + ((i axis % ratio axis : ℤ) : ℚ) = ((i axis : ℤ) : ℚ) := by
      exact_mod_cast congrArg (fun z : ℤ => (z : ℚ)) (Int.ediv_add_emod (i axis) (ratio axis))
    push_cast at hq ⊢
    linarith [hq]
  have hw : sideW_L (i axis) (ratio axis)
      = 1 - ((i axis % ratio axis : ℤ) : ℚ) / ((ratio axis : ℤ) : ℚ) := by
    unfold sideW_L
    rw [hkey]
  have hmod0 : (0 : ℚ) ≤ ((i axis % ratio axis : ℤ) : ℚ) := by
    exact_mod_cast Int.emod_nonneg (i axis) (ne_of_gt hr0)
  have hmodr : ((i axis % ratio axis : ℤ) : ℚ) < ((ratio axis : ℤ) : ℚ) := by
    exact_mod_cast Int.emod_lt_of_pos (i axis) hr0
  have hfrac0 : (0 : ℚ) ≤ ((i axis % ratio axis : ℤ) : ℚ) / ((ratio axis : ℤ) : ℚ) :=
    div_nonneg hmod0 (le_of_lt hrq)
  have hfrac1 : ((i axis % ratio axis : ℤ) : ℚ) / ((ratio axis : ℤ) : ℚ) ≤ 1 :=
    le_of_lt ((div_lt_one hrq).mpr hmodr)
  refine ⟨rfl, rfl, rfl, by ring, ?_, ?_, ?_, ?_⟩
  · rw [hw]; linarith
  · rw [hw]; linarith
  · rw [hw]; linarith
  · rw [hw]; linarith

/-- Witness for C4 on a concrete one-dimensional configuration: fine side
index 3, refinement ratio 2, identity maps; the row has the two bracket
entries and weights one half each, summing to one and lying in [0, 1]. -/
theorem prolongation_side_row_two_bracket_weights_witness :
    (sideFineRowEntries (n := 1) 0 (fun _ => 2) (fun I _ => I 0) id 3
        (fun _ => 3) 0).length = 2 ∧
    (sideFineRowEntries (n := 1) 0 (fun _ => 2) (fun I _ => I 0) id 3
        (fun _ => 3) 0).map PEntry.col
      = [id ((fun (I : CellIdx 1) (_ : ℕ) => I 0) (coarsenCell (fun _ => 3) (fun _ => 2)) 0),
         id ((fun (I : CellIdx 1) (_ : ℕ) => I 0)
              (fun e => coarsenCell (fun _ => 3) (fun _ => 2) e + axisOffset 0 e) 0)] ∧
    (sideFineRowEntries (n := 1) 0 (fun _ => 2) (fun I _ => I 0) id 3
        (fun _ => 3) 0).map PEntry.val
      = [sideW_L 3 2, 1 - sideW_L 3 2] ∧
    sideW_L 3 2 + (1 - sideW_L 3 2) = 1 ∧
    0 ≤ sideW_L 3 2 ∧ sideW_L 3 2 ≤ 1 ∧
    0 ≤ 1 - sideW_L 3 2 ∧ 1 - sideW_L 3 2 ≤ 1 :=
  prolongation_side_row_two_bracket_weights (n := 1) 0 (fun _ => 2)
    (fun I _ => I 0) id 3 (fun _ => 3) 0 (by decide)

/-! ## Restriction scaling

Embeds the scaling loop of constructRestrictionScalingOp (lines 662-681):
the column 1-norms of the assembled prolongation matrix are computed
(MatGetColumnNorms with NORM_1: the sum of the absolute values of the
column entries), then each norm is replaced by its reciprocal unless the
comparison with zero succeeds, in which case the scaling is set to
exactly 0:

  if (!MathUtilities<double>::equalEps(sum, 0.0))
      column_sum_inv[k] = 1.0 / sum;
  else
      column_sum_inv[k] = 0.0;  -/

/-- The 1-norm of one matrix column: the sum of the absolute values of
its entries (the contract of MatGetColumnNorms with NORM_1). -/
def colNorm1 (col : List ℚ) : ℚ := (col.map abs).sum

/-- Modelled from the spec: the comparison
MathUtilities::equalEps(sum, 0.0) comes from the external SAMRAI toolbox
(not under src/); the spec reads the branch as a zero test ("invert
nonzero norms; map zero norms to zero scaling"), so over exact rational
arithmetic it is equality with 0. -/
def equalEpsZero (s : ℚ) : Bool := decide (s = 0)

/-- The per-column scaling loop of constructRestrictionScalingOp. -/
def restrictionScaling (colNorms : List ℚ) : List ℚ :=
  colNorms.map (fun s => if !equalEpsZero s then 1 / s else 0)

/-- C5. For every assembled prolongation matrix (given by its list of
columns), the restriction scaling produces, per column, exactly 0 when
the column 1-norm is zero (a coarse DOF receiving no fine contributions)
and the reciprocal of the norm otherwise; in the nonzero branch the
produced value is the genuine finite inverse (multiplying back to 1), so
a zero norm never reaches the division and the result is never undefined
(the exact-arithmetic counterpart of never NaN or infinite). -/
theorem restriction_scaling_zero_norm_safe (cols : List (List ℚ)) :
    restrictionScaling (cols.map colNorm1)
      = cols.map (fun c => if colNorm1 c = 0 then 0 else 1 / colNorm1 c) ∧
    (∀ c ∈ cols, colNorm1 c ≠ 0 →
      (1 / colNorm1 c) * colNorm1 c = 1) := by
  constructor
  · unfold restrictionScaling
    rw [List.map_map]
    apply List.map_congr_left
    intro c _
    simp only [Function.comp_apply, equalEpsZero]
    by_cases h : colNorm1 c = 0 <;> simp [h]
  · intro c _ hne
    field_simp

/-- Witness for C5: a concrete two-column matrix whose first column has
entries summing in absolute value to 2 and whose second column is all
zero; the scaling is [1/2, 0] and the nonzero norm inverts exactly. -/
theorem restriction_scaling_zero_norm_safe_witness :
    restrictionScaling ([[(-1 : ℚ), 1], [0, 0]].map colNorm1)
      = [[(-1 : ℚ), 1], [0, 0]].map
          (fun c => if colNorm1 c = 0 then 0 else 1 / colNorm1 c) ∧
    (1 / colNorm1 [(-1 : ℚ), 1]) * colNorm1 [(-1 : ℚ), 1] = 1 := by
  have h := restriction_scaling_zero_norm_safe [[(-1 : ℚ), 1], [0, 0]]
  refine ⟨h.1, h.2 [(-1 : ℚ), 1] (by simp) ?_⟩
  unfold colNorm1
  norm_num

/-! ## Scattered-Point Interpolation Assembler: tensor-product rows

Embeds the coefficient construction of constructPatchLevelSCInterpOp
(lines 567-608): for one sample point and one axis component, the row
values are initialized to 1 and, walking the stencil box, each value is
multiplied by the per-axis 1-D kernel weight at the offset of the box
cell from the stencil lower corner:

  stencil_box_vals[stencil_idx] *= w[d][i(d) - stencil_box_lower(d)];

so the row is exactly the tensor product of the per-axis weight arrays,
enumerated over the stencil box (the cartesian product of the per-axis
offset ranges). tensorRowVals lists the same products axis by axis. -/

/-- Row coefficients of one scattered point: all products taking one
weight from each per-axis kernel weight array, enumerated over the
stencil box. -/
def tensorRowVals : List (List ℚ) → List ℚ
  | [] => [1]
  | w :: ws => w.flatMap (fun x => (tensorRowVals ws).map (fun y => x * y))

lemma sum_map_mul_left (x : ℚ) (l : List ℚ) :
    ((l.map (fun y => x * y)).sum) = x * l.sum := by
  induction l with
  | nil => simp
  | cons a l ih => simp [ih]; ring

lemma sum_tensorRowVals (ws : List (List ℚ)) :
    (tensorRowVals ws).sum = (ws.map List.sum).prod := by
  induction ws with
  | nil => simp [tensorRowVals]
  | cons w ws ih =>
    simp only [tensorRowVals, List.map_cons, List.prod_cons, ← ih]
    induction w with
    | nil => simp
    | cons a w ihw =>
      simp only [List.flatMap_cons, List.sum_append, List.sum_cons, ihw, sum_map_mul_left]
      ring

/-- C6. In the Scattered-Point Interpolation Assembler, each assembled
row is the tensor product across the stencil box of the per-axis 1-D
kernel weights; consequently the row sum equals the product of the
per-axis weight sums, and for every kernel whose per-axis weight array
sums to 1 (partition of unity) the assembled row sums to exactly 1, in
exact arithmetic, for interior and boundary-adjacent points alike (the
weight arrays are unconstrained inputs). -/
theorem sc_interp_row_sum_one (axisWeights : List (List ℚ))
    (h : ∀ w ∈ axisWeights, w.sum = 1) :
    (tensorRowVals axisWeights).sum = 1 := by
  rw [sum_tensorRowVals]
  rw [List.prod_eq_one]
  intro x hx
  rw [List.mem_map] at hx
  obtain ⟨w, hw, rfl⟩ := hx
  exact h w hw

/-- Witness for C6 at a concrete two-axis stencil with partition-of-unity
weights [1/2, 1/2] and [1/4, 3/4]: the four tensor-product coefficients
sum to 1. -/
theorem sc_interp_row_sum_one_witness :
    (∀ w ∈ [[(1 : ℚ)/2, 1/2], [1/4, 3/4]], w.sum = 1) ∧
    (tensorRowVals [[(1 : ℚ)/2, 1/2], [1/4, 3/4]]).sum = 1 := by
  have hpu : ∀ w ∈ [[(1 : ℚ)/2, 1/2], [1/4, 3/4]], w.sum = 1 := by
    intro w hw
    rcases List.mem_cons.mp hw with h | h
    · subst h; norm_num
    · rw [List.mem_singleton] at h; subst h; norm_num
  exact ⟨hpu, sc_interp_row_sum_one [[(1 : ℚ)/2, 1/2], [1/4, 3/4]] hpu⟩

/-! ## Subdomain Partitioner: zero overlap gives the identical object

Embeds the IS-construction loops of constructPatchLevelASMSubdomains_cell
(lines 1166-1171) and constructPatchLevelASMSubdomains_side (lines
1337-1342).  Both variants compute

  const bool there_is_overlap = overlap_size.max();

and, per sub-box, first create the non-overlapping index set
(ISCreateGeneral on the sorted DOF list); when there is no overlap they
take a reference to that very object,

  PetscObjectReference(...(is_nonoverlap[subdomain_counter]));
  is_overlap[subdomain_counter] = is_nonoverlap[subdomain_counter];

otherwise they create a distinct object from the overlap box DOF list
(non-negative DOFs only, sorted, std::unique to drop duplicates).
Object identity is modelled by tagging every created IS with a fresh
allocation id (the counter ctr): two ISes are the identical object
exactly when the whole structure, id included, coincides. -/

/-- A PETSc index set as an allocated object: an allocation id standing
for the object identity, and the stored global DOF numbers. -/
structure ISObj where
  oid : ℕ
  dofs : List ℤ
  deriving DecidableEq, Repr

/-- Maximum component of an IntVector (IntVector::max over the NDIM
components; NDIM is at least 1, so the list is nonempty in the code). -/
def intVectorMax : List ℤ → ℤ
  | [] => 0
  | x :: xs => xs.foldl max x

/-- Removal of consecutive duplicates from a sorted list (std::unique
followed by erase). -/
def eraseAdjDups : List ℤ → List ℤ
  | [] => []
  | [x] => [x]
  | x :: y :: rest => if x = y then eraseAdjDups (y :: rest)
                      else x :: eraseAdjDups (y :: rest)

/-- Contents of a non-overlapping index set in the cell variant: the
sub-box DOFs (over every cell and depth component), sorted. -/
def cellNonoverlapContents (boxLocalDofs : List ℤ) : List ℤ :=
  boxLocalDofs.mergeSort (fun a b => decide (a ≤ b))

/-- Contents of an overlapping index set in the cell variant: the
overlap-box DOFs with the negative sentinels dropped, sorted, and
consecutive duplicates erased. -/
def cellOverlapContents (boxOverlapDofs : List ℤ) : List ℤ :=
  eraseAdjDups ((boxOverlapDofs.filter (fun j => decide (0 ≤ j))).mergeSort
    (fun a b => decide (a ≤ b)))

/-- The subdomain loop of constructPatchLevelASMSubdomains_cell: each
element of subBoxDofs carries the DOF list read over one non-overlapping
sub-box and the DOF list read over the matching overlap box; the loop
returns the (non-overlapping, overlapping) IS pairs in order, threading
the allocation counter. -/
def asmSubdomains_cell (overlapSize : List ℤ)
    (subBoxDofs : List (List ℤ × List ℤ)) (ctr : ℕ) : List (ISObj × ISObj) :=
  match subBoxDofs with
  | [] => []
  | (nonov, ov) :: rest =>
    let isNon : ISObj := ⟨ctr, cellNonoverlapContents nonov⟩
    if intVectorMax overlapSize ≠ 0 then
      (isNon, ⟨ctr + 1, cellOverlapContents ov⟩) ::
        asmSubdomains_cell overlapSize rest (ctr + 2)
    else
      (isNon, isNon) :: asmSubdomains_cell overlapSize rest (ctr + 1)

/-- Contents of a non-overlapping index set in the side variant: the
sub-box side DOFs after the upper-face exclusion (the caller supplies the
surviving list, the exclusion itself being the subject of the
boundary-containment helper), sorted. -/
def sideNonoverlapContents (boxLocalDofs : List ℤ) : List ℤ :=
  boxLocalDofs.mergeSort (fun a b => decide (a ≤ b))

/-- Contents of an overlapping index set in the side variant: drop
negative sentinels, sort, erase consecutive duplicates. -/
def sideOverlapContents (boxOverlapDofs : List ℤ) : List ℤ :=
  eraseAdjDups ((boxOverlapDofs.filter (fun j => decide (0 ≤ j))).mergeSort
    (fun a b => decide (a ≤ b)))

/-- The subdomain loop of constructPatchLevelASMSubdomains_side, with
the same reference-the-same-object branch as the cell variant. -/
def asmSubdomains_side (overlapSize : List ℤ)
    (subBoxDofs : List (List ℤ × List ℤ)) (ctr : ℕ) : List (ISObj × ISObj) :=
  match subBoxDofs with
  | [] => []
  | (nonov, ov) :: rest =>
    let isNon : ISObj := ⟨ctr, sideNonoverlapContents nonov⟩
    if intVectorMax overlapSize ≠ 0 then
      (isNon, ⟨ctr + 1, sideOverlapContents ov⟩) ::
        asmSubdomains_side overlapSize rest (ctr + 2)
    else
      (isNon, isNon) :: asmSubdomains_side overlapSize rest (ctr + 1)

lemma intVectorMax_zero (ov : List ℤ) (h : ∀ c ∈ ov, c = 0) :
    intVectorMax ov = 0 := by
  cases ov with
  | nil => rfl
  | cons x xs =>
    unfold intVectorMax
    have hx : x = 0 := h x (List.mem_cons_self x xs)
    subst hx
    induction xs with
    | nil => rfl
    | cons y ys ih =>
      have hy : y = 0 := h y (List.mem_cons_of_mem _ (List.mem_cons_self y ys))
      subst hy
      simp only [List.foldl_cons, max_self]
      exact ih (fun c hc => by
        rcases List.mem_cons.mp hc with h1 | h1
        · exact h c (List.mem_cons.mpr (Or.inl h1))
        · exact h c (List.mem_cons_of_mem _ (List.mem_cons_of_mem _ h1)))

/-- C7. In both the volumetric and the directional Subdomain Partitioner,
whenever the overlap size is the zero vector, every sub-box is given the
identical index-set object twice: the returned overlapping and
non-overlapping entries coincide as allocated objects (the allocation id
as well as the contents), not merely as equal contents. -/
theorem asm_subdomains_zero_overlap_identical (overlapSize : List ℤ)
    (cellDofs sideDofs : List (List ℤ × List ℤ)) (ctrC ctrS : ℕ)
    (h : ∀ c ∈ overlapSize, c = 0) :
    (∀ pr ∈ asmSubdomains_cell overlapSize cellDofs ctrC, pr.2 = pr.1) ∧
    (∀ pr ∈ asmSubdomains_side overlapSize sideDofs ctrS, pr.2 = pr.1) := by
  have hmax : intVectorMax overlapSize = 0 := intVectorMax_zero overlapSize h
  constructor
  · intro pr hpr
    induction cellDofs generalizing ctrC with
    | nil => simp [asmSubdomains_cell] at hpr
    | cons b rest ih =>
      obtain ⟨nonov, ov⟩ := b
      rw [asmSubdomains_cell, if_neg (by simp [hmax])] at hpr
      rcases List.mem_cons.mp hpr with h1 | h1
      · rw [h1]
      · exact ih _ h1
  · intro pr hpr
    induction sideDofs generalizing ctrS with
    | nil => simp [asmSubdomains_side] at hpr
    | cons b rest ih =>
      obtain ⟨nonov, ov⟩ := b
      rw [asmSubdomains_side, if_neg (by simp [hmax])] at hpr
      rcases List.mem_cons.mp hpr with h1 | h1
      · rw [h1]
      · exact ih _ h1

/-- Witness for C7 on a concrete two-dimensional zero overlap vector and
one sub-box per variant: every returned pair is the identical object. -/
theorem asm_subdomains_zero_overlap_identical_witness :
    (∀ c ∈ ([0, 0] : List ℤ), c = 0) ∧
    (∀ pr ∈ asmSubdomains_cell [0, 0] [([5, 3], [5, 3, 7])] 0, pr.2 = pr.1) ∧
    (∀ pr ∈ asmSubdomains_side [0, 0] [([2, 9], [2, 9, -1])] 4, pr.2 = pr.1) := by
  have h := asm_subdomains_zero_overlap_identical [0, 0]
    [([5, 3], [5, 3, 7])] [([2, 9], [2, 9, -1])] 0 4 (by decide)
  exact ⟨by decide, h.1, h.2⟩

/-! ## Scattered-Point Interpolation Assembler: odd stencil widths

Embeds the width handling of constructPatchLevelSCInterpOp.  At entry
(line 408) the width is silently repaired:

  // todo Properly support odd stencil sizes.
  if (interp_stencil % 2 != 0) interp_stencil += 1;

and only afterwards, inside the per-point stencil-box loop (lines
499-506), an odd width would be rejected:

  if (interp_stencil % 2 != 0)
      TBOX_ERROR("... support for odd stencil sizes not currently implemented");

The loop check therefore tests the already repaired width. -/

/-- Width after the silent entry repair: odd widths are incremented to
the next even width, even widths pass unchanged. -/
def scInterpEffectiveStencil (w : ℤ) : ℤ :=
  if w % 2 ≠ 0 then w + 1 else w

/-- The in-loop odd-width rejection, applied to whatever width the
assembly is running with. -/
def scInterpOddCheck (w : ℤ) : Except String Unit :=
  if w % 2 ≠ 0 then
    Except.error "support for odd stencil sizes not currently implemented"
  else Except.ok ()

/-- Width handling of one constructPatchLevelSCInterpOp call: entry
repair first, then the in-loop check against the repaired width; on
success the assembly proceeds with the effective width. -/
def scInterpWidthHandling (w : ℤ) : Except String ℤ :=
  let w2 := scInterpEffectiveStencil w
  match scInterpOddCheck w2 with
  | Except.error e => Except.error e
  | Except.ok _ => Except.ok w2

/-- Counterexample to C8 as stated: the assembly call with the odd
interpolation-stencil width 3 does not abort — it silently proceeds with
the rounded-up even width 4, so odd widths are repaired, not fatally
rejected. -/
theorem sc_interp_odd_width_not_rejected :
    scInterpWidthHandling 3 = Except.ok 4 := by
  rfl

/-- C8 as amended. The Scattered-Point Interpolation Assembler never
aborts on an odd interpolation-stencil width: every requested width is
first silently repaired (an odd width is rounded up to the next even
width, an even width is kept), the repaired width always passes the
in-loop odd-width check (which is therefore unreachable), and the
assembly proceeds with the repaired width. -/
theorem sc_interp_odd_width_silently_repaired (w : ℤ) :
    scInterpWidthHandling w = Except.ok (scInterpEffectiveStencil w) ∧
    (w % 2 ≠ 0 → scInterpEffectiveStencil w = w + 1) ∧
    (w % 2 = 0 → scInterpEffectiveStencil w = w) := by
  have heven : scInterpEffectiveStencil w % 2 = 0 := by
    unfold scInterpEffectiveStencil
    by_cases h : w % 2 = 0
    · simp [h]
    · rw [if_pos h]
      omega
  refine ⟨?_, ?_, ?_⟩
  · unfold scInterpWidthHandling scInterpOddCheck
    simp [heven]
  · intro h
    unfold scInterpEffectiveStencil
    rw [if_pos h]
  · intro h
    unfold scInterpEffectiveStencil
    simp [h]

/-- Witness for C8 as amended at the odd width 5: the call proceeds with
the even width 6 instead of aborting. -/
theorem sc_interp_odd_width_silently_repaired_witness :
    scInterpWidthHandling 5 = Except.ok (scInterpEffectiveStencil 5) ∧
    ((5 : ℤ) % 2 ≠ 0 → scInterpEffectiveStencil 5 = 5 + 1) :=
  ⟨(sc_interp_odd_width_silently_repaired 5).1,
   (sc_interp_odd_width_silently_repaired 5).2.1⟩

/-! ## Scattered-Point Interpolation Assembler: locating a sample point

Embeds the patch search of constructPatchLevelSCInterpOp (lines
478-489): a degenerate box at the cell containing the point is tested
against the level boxes (BoxTree::findOverlapIndices); when no box
overlaps, the search box is grown by the vector IntVector(1) — one cell
in every direction — and the search repeated once; an empty result after
the retry fails the assertion and aborts (there is no further retry and
no partial result); otherwise the first returned patch is used. -/

/-- Axis-aligned integer box given by its lower and upper corners
(inclusive, SAMRAI convention). -/
structure BoxNd (n : ℕ) where
  lower : CellIdx n
  upper : CellIdx n

/-- Containment of a grid index in a box, componentwise. -/
def boxContainsIdx {n : ℕ} (b : BoxNd n) (i : CellIdx n) : Bool :=
  decide (∀ d, b.lower d ≤ i d ∧ i d ≤ b.upper d)

/-- Nonempty intersection of two boxes, componentwise. -/
def boxesOverlap {n : ℕ} (a b : BoxNd n) : Bool :=
  decide (∀ d, max (a.lower d) (b.lower d) ≤ min (a.upper d) (b.upper d))

/-- Box::grow by g cells in every direction. -/
def growBox {n : ℕ} (b : BoxNd n) (g : ℤ) : BoxNd n :=
  ⟨fun d => b.lower d - g, fun d => b.upper d + g⟩

/-- BoxTree::findOverlapIndices: the indices of the level boxes with
nonempty intersection with the query box, in level order. -/
def findOverlapIndices {n : ℕ} (level : List (BoxNd n)) (b : BoxNd n) :
    List ℕ :=
  (level.enum.filter (fun p => boxesOverlap p.2 b)).map Prod.fst

/-- The per-point search of constructPatchLevelSCInterpOp: search at the
cell, on failure grow by one and search once more, on a second failure
abort (TBOX_ASSERT(patch_num_arr.size() != 0)); the patch used is the
first hit (patch_num_arr[0]). -/
def findContainingPatch {n : ℕ} (level : List (BoxNd n))
    (Xidx : CellIdx n) : Except String ℕ :=
  match findOverlapIndices level ⟨Xidx, Xidx⟩ with
  | k :: _ => Except.ok k
  | [] =>
    match findOverlapIndices level (growBox ⟨Xidx, Xidx⟩ 1) with
    | k :: _ => Except.ok k
    | [] => Except.error "patch_num_arr.size() != 0 failed"

/-- C9. For every level box list and sample-point cell index: when some
level box overlaps the cell, the first hit is used and no widening
happens; when none does, the search box is widened by exactly one cell
in every direction (lower corner decreased by 1, upper increased by 1
on every axis) and searched exactly once more, using the first hit; and
when the widened search also finds nothing the call aborts with the
fatal error — there is no second retry and no partial result. -/
theorem sc_interp_point_location_single_retry {n : ℕ}
    (level : List (BoxNd n)) (Xidx : CellIdx n) :
    (∀ k rest, findOverlapIndices level ⟨Xidx, Xidx⟩ = k :: rest →
      findContainingPatch level Xidx = Except.ok k) ∧
    (growBox (⟨Xidx, Xidx⟩ : BoxNd n) 1
      = ⟨fun d => Xidx d - 1, fun d => Xidx d + 1⟩) ∧
    (∀ k rest, findOverlapIndices level ⟨Xidx, Xidx⟩ = [] →
      findOverlapIndices level (growBox ⟨Xidx, Xidx⟩ 1) = k :: rest →
      findContainingPatch level Xidx = Except.ok k) ∧
    (findOverlapIndices level ⟨Xidx, Xidx⟩ = [] →
      findOverlapIndices level (growBox ⟨Xidx, Xidx⟩ 1) = [] →
      findContainingPatch level Xidx
        = Except.error "patch_num_arr.size() != 0 failed") := by
  refine ⟨?_, rfl, ?_, ?_⟩
  · intro k rest h
    unfold findContainingPatch
    rw [h]
  · intro k rest h1 h2
    unfold findContainingPatch
    rw [h1, h2]
  · intro h1 h2
    unfold findContainingPatch
    rw [h1, h2]

/-- Witness for C9 on a concrete one-dimensional level with a single box
[2, 4]: the cell 1 is not overlapped, the widened box [0, 2] is, so the
point is located on the single retry. -/
theorem sc_interp_point_location_single_retry_witness :
    findOverlapIndices (n := 1) [⟨fun _ => 2, fun _ => 4⟩]
        ⟨fun _ => 1, fun _ => 1⟩ = [] ∧
    findOverlapIndices (n := 1) [⟨fun _ => 2, fun _ => 4⟩]
        (growBox ⟨fun _ => 1, fun _ => 1⟩ 1) = [0] ∧
    findContainingPatch (n := 1) [⟨fun _ => 2, fun _ => 4⟩]
        (fun _ => 1) = Except.ok 0 := by
  have h1 : findOverlapIndices (n := 1) [⟨fun _ => 2, fun _ => 4⟩]
      ⟨fun _ => 1, fun _ => 1⟩ = [] := by
    rfl
  have h2 : findOverlapIndices (n := 1) [⟨fun _ => 2, fun _ => 4⟩]
      (growBox ⟨fun _ => 1, fun _ => 1⟩ 1) = [0] := by
    rfl
  exact ⟨h1, h2,
    (sc_interp_point_location_single_retry (n := 1)
      [⟨fun _ => 2, fun _ => 4⟩] (fun _ => 1)).2.2.1 0 [] h1 h2⟩

/-! ## The boundary-containment helper

Embeds is_cf_bdry_idx (lines 92-101) exactly as written:

  bool contains_idx = false;
  int n_cf_bdry_boxes = static_cast<int>(cf_bdry_boxes.size());
  for (int k = 0; !contains_idx || k < n_cf_bdry_boxes; ++k)
  {
      contains_idx = contains_idx || cf_bdry_boxes[k].contains(idx);
  }
  return contains_idx;

The loop guard joins the two conditions with OR, so as long as
contains_idx is false the loop keeps running regardless of k; the body
then evaluates cf_bdry_boxes[k] at positions past the end of the vector.
The embedding makes every iteration explicit: a body access with
k >= length is the out-of-bounds error, and the fuel length+1 is enough
for every in-bounds execution path (k increases by one per step and the
guard is false at k = length once contains_idx is true). -/

/-- One-for-one embedding of the is_cf_bdry_idx loop: state (k,
contains_idx), guard !contains_idx OR k < length, body reading
cf_bdry_boxes[k]; the error value records the out-of-bounds read the
C++ performs. -/
def is_cf_bdry_idx_go {n : ℕ} (idx : CellIdx n) (boxes : List (BoxNd n)) :
    ℕ → ℕ → Bool → Except String Bool
  | 0, _, _ => Except.error "fuel exhausted"
  | fuel + 1, k, contains =>
    if !contains || decide (k < boxes.length) then
      if h : k < boxes.length then
        is_cf_bdry_idx_go idx boxes fuel (k + 1)
          (contains || boxContainsIdx (boxes.get ⟨k, h⟩) idx)
      else Except.error "out-of-bounds read of cf_bdry_boxes"
    else Except.ok contains

/-- The helper as called: loop from k = 0 with contains_idx = false. -/
def is_cf_bdry_idx {n : ℕ} (idx : CellIdx n) (boxes : List (BoxNd n)) :
    Except String Bool :=
  is_cf_bdry_idx_go idx boxes (boxes.length + 1) 0 false

/-- True point-in-any-box semantics the claim (and the spec) demand of
the helper. -/
def anyBoxContains {n : ℕ} (idx : CellIdx n) (boxes : List (BoxNd n)) :
    Bool :=
  boxes.any (fun b => boxContainsIdx b idx)

/-- C10 fails on the code: at the concrete two-dimensional input of the
index (0,0) and the single coarse-fine boundary box [1,2]x[1,2] — a list
on which no box contains the index, so point-in-any-box semantics
returns false — the helper as written never exits its loop in bounds:
it reads cf_bdry_boxes[1] past the end of the one-element vector
(undefined behavior in C++), instead of terminating with false. The OR
in the loop guard, where a search loop needs AND, contradicts the
helper's evident intent and its use as a containment test. -/
theorem is_cf_bdry_idx_reads_out_of_bounds :
    is_cf_bdry_idx (n := 2) (fun _ => 0)
        [⟨fun _ => 1, fun _ => 2⟩]
      = Except.error "out-of-bounds read of cf_bdry_boxes" ∧
    anyBoxContains (n := 2) (fun _ => 0)
        [⟨fun _ => 1, fun _ => 2⟩] = false := by
  constructor
  · rfl
  · rfl

end PETScMatUtilities
